import Mathlib

/-!
Verification of the alarm scheduling core of the AuroraWake mobile alarm
application: the recurrence calculator (`calculateNextRingTime`), the
collection ordering (`sortAlarmsByNextRingTime`, `getNextAlarmToRing`) and
the store transitions (`addAlarm`, `updateAlarm`, `toggleAlarm`,
`deleteAlarm`, `snoozeAlarm`, `dismissAlarm`,
`updateAllAlarmNotifications`).

Modelling conventions:
* Instants are natural numbers counting milliseconds of local wall-clock
  time since an epoch chosen to be a Monday at 00:00 local time, so the
  JavaScript `Date.getDay()` of an instant `t` is `(t / msPerDay + 1) % 7`
  (the epoch day is a Monday, whose JavaScript weekday ordinal is 1).
* The ambient `new Date()` of the source becomes an explicit `now`
  parameter.
* JavaScript `Array.prototype.sort` (a stable sort driven by a comparator)
  is embedded as a stable insertion sort with the same comparator.
* The notification collaborator is split into parameters: `granted`
  models the permission check and `sched` models
  `scheduleNotificationAsync` (returning `none` on failure).  Calls to
  the platform scheduler and canceller are recorded in a `NotifEvent`
  trace so that "no notification was armed or cancelled" is expressible.
-/

namespace AuroraWake

def msPerMinute : Nat := 60 * 1000

def msPerHour : Nat := 60 * 60 * 1000

def msPerDay : Nat := 24 * 60 * 60 * 1000

/-- `WakeUpMode` from `types/alarm.ts`. -/
inductive WakeUpMode where
  | radio
  | spotify
  | horoscope
deriving DecidableEq

/-- `WakeUpSettings` from `types/alarm.ts`; the mode-specific fields are
opaque to the scheduling core and collapsed into one payload string. -/
structure WakeUpSettings where
  type : WakeUpMode
  payload : String
deriving DecidableEq

/-- `Alarm` from `types/alarm.ts`.  `WeekDay` ordinals (Monday = 0 ..
Sunday = 6) are naturals, `nextRingTime` is an absolute instant in
milliseconds, `notificationId` is the optional platform handle. -/
structure Alarm where
  id : String
  name : String
  hour : Nat
  minute : Nat
  active : Bool
  repeatDays : List Nat
  wakeUpSettings : WakeUpSettings
  nextRingTime : Option Nat
  notificationId : Option String
deriving DecidableEq

/-- `jsWeekDayToAppWeekDay` from `utils/dateUtils.ts`. -/
def jsWeekDayToAppWeekDay (jsWeekDay : Nat) : Nat := (jsWeekDay + 6) % 7

/-- `appWeekDayToJsWeekDay` from `utils/dateUtils.ts`. -/
def appWeekDayToJsWeekDay (appWeekDay : Nat) : Nat := (appWeekDay + 1) % 7

/-- `now.getDay()`: the epoch of the timeline is a Monday, whose
JavaScript weekday ordinal is 1. -/
def getDayJs (now : Nat) : Nat := (now / msPerDay + 1) % 7

/-- Midnight of the day containing `now`. -/
def dayStart (now : Nat) : Nat := now / msPerDay * msPerDay

/-- `alarmTimeToday`: today's date at `hour:minute:00.000`, i.e.
`setHours(alarm.hour, alarm.minute, 0, 0)` applied to `new Date()`. -/
def alarmTimeTodayOf (now hour minute : Nat) : Nat :=
  dayStart now + hour * msPerHour + minute * msPerMinute

/-- Insertion step of the ascending numeric sort
`[...alarm.repeatDays].sort((a, b) => a - b)`. -/
def insertNat (x : Nat) : List Nat → List Nat
  | [] => [x]
  | y :: ys => if x ≤ y then x :: y :: ys else y :: insertNat x ys

/-- Ascending numeric sort of the repeat days. -/
def sortNats : List Nat → List Nat
  | [] => []
  | x :: xs => insertNat x (sortNats xs)

/-- `calculateNextRingTime` from `utils/alarmUtils.ts`, with the ambient
`new Date()` made an explicit parameter `now`. -/
def calculateNextRingTime (alarm : Alarm) (now : Nat) : Option Nat :=
  if alarm.active = false then none
  else
    let currentAppDayOfWeek := jsWeekDayToAppWeekDay (getDayJs now)
    let alarmTimeToday := alarmTimeTodayOf now alarm.hour alarm.minute
    if alarm.repeatDays = [] then
      if now < alarmTimeToday then some alarmTimeToday
      else some (alarmTimeToday + msPerDay)
    else
      let sortedRepeatDays := sortNats alarm.repeatDays
      if currentAppDayOfWeek ∈ sortedRepeatDays ∧ now < alarmTimeToday then
        some alarmTimeToday
      else
        match sortedRepeatDays.find? (fun d => decide (currentAppDayOfWeek < d)) with
        | some day => some (alarmTimeToday + (day - currentAppDayOfWeek) * msPerDay)
        | none =>
          match sortedRepeatDays with
          | [] => none
          | day :: _ => some (alarmTimeToday + (7 - currentAppDayOfWeek + day) * msPerDay)

/-- The `(hour, minute)` tie-break branch of the comparator in
`sortAlarmsByNextRingTime`. -/
def hourMinuteCmp (a b : Alarm) : Int :=
  if a.hour ≠ b.hour then (a.hour : Int) - (b.hour : Int)
  else (a.minute : Int) - (b.minute : Int)

/-- The comparator closure passed to `sort` in
`sortAlarmsByNextRingTime` (`utils/alarmUtils.ts`). -/
def compareAlarms (a b : Alarm) : Int :=
  if a.active = false ∧ b.active = true then 1
  else if a.active = true ∧ b.active = false then -1
  else if a.active = false ∧ b.active = false then hourMinuteCmp a b
  else if a.nextRingTime = none ∧ b.nextRingTime = none then hourMinuteCmp a b
  else if a.nextRingTime = none then 1
  else if b.nextRingTime = none then -1
  else (a.nextRingTime.getD 0 : Int) - (b.nextRingTime.getD 0 : Int)

/-- Insertion step of the stable sort: an element is placed before the
first already-sorted element that does not compare strictly below it,
which is exactly where a stable comparator sort puts it. -/
def insertAlarm (x : Alarm) : List Alarm → List Alarm
  | [] => [x]
  | y :: ys => if compareAlarms x y ≤ 0 then x :: y :: ys else y :: insertAlarm x ys

/-- `sortAlarmsByNextRingTime` from `utils/alarmUtils.ts`:
`[...alarms].sort(comparator)`, embedded as a stable insertion sort with
the source's comparator. -/
def sortAlarmsByNextRingTime : List Alarm → List Alarm
  | [] => []
  | x :: xs => insertAlarm x (sortAlarmsByNextRingTime xs)

/-- The filter predicate `alarm.active && alarm.nextRingTime !== null`
used by `getNextAlarmToRing`. -/
def isActiveWithTime (a : Alarm) : Bool := a.active && a.nextRingTime.isSome

/-- The reducer closure inside `getNextAlarmToRing`. -/
def nextAlarmReducer (nextAlarm currentAlarm : Alarm) : Alarm :=
  match nextAlarm.nextRingTime, currentAlarm.nextRingTime with
  | none, _ => currentAlarm
  | some _, none => nextAlarm
  | some tn, some tc => if tc < tn then currentAlarm else nextAlarm

/-- `getNextAlarmToRing` from `utils/alarmUtils.ts`: filter the active
alarms that have a ring time, then `reduce` (a left fold seeded with the
first element) keeping the earlier alarm on strict comparison. -/
def getNextAlarmToRing (alarms : List Alarm) : Option Alarm :=
  let activeAlarms := alarms.filter isActiveWithTime
  match activeAlarms with
  | [] => none
  | a0 :: _ => some (activeAlarms.foldl nextAlarmReducer a0)

/-- Modelled from the spec sentence defining the query it refines:
"Next alarm to ring = first element of the sorted collection if that
element is active, else null." -/
def nextAlarmSpecRule (alarms : List Alarm) : Option Alarm :=
  match (sortAlarmsByNextRingTime alarms).head? with
  | none => none
  | some a => if a.active = true then some a else none

/-- `updateAllNextRingTimes` from `utils/alarmUtils.ts`. -/
def updateAllNextRingTimes (alarms : List Alarm) (now : Nat) : List Alarm :=
  alarms.map (fun alarm => { alarm with nextRingTime := calculateNextRingTime alarm now })

/-- Observable calls made to the platform notification collaborator. -/
inductive NotifEvent where
  | cancel (notificationId : String)
  | schedule (alarm : Alarm)
deriving DecidableEq

/-- `scheduleAlarmNotification` from `services/alarmService.ts`: returns
`null` for an inactive or timeless alarm or when permission is denied;
otherwise cancels any handle already on the record, attempts to schedule
(`sched` returns `none` on platform failure) and returns the new handle. -/
def scheduleAlarmNotification (granted : Bool) (sched : Alarm → Option String)
    (alarm : Alarm) : Option String × List NotifEvent :=
  if alarm.active = false ∨ alarm.nextRingTime = none then (none, [])
  else if granted = false then (none, [])
  else
    let cancelEvents : List NotifEvent :=
      match alarm.notificationId with
      | some nid => [NotifEvent.cancel nid]
      | none => []
    (sched alarm, cancelEvents ++ [NotifEvent.schedule alarm])

/-- `cancelAlarmNotification` from `services/alarmService.ts`, recorded
as a cancel event. -/
def cancelAlarmNotification (notificationId : String) : List NotifEvent :=
  [NotifEvent.cancel notificationId]

/-- `findIndex` followed by indexing, fused: the index and the record of
the first alarm satisfying `p`. -/
def findWithIndex (p : Alarm → Bool) : List Alarm → Option (Nat × Alarm)
  | [] => none
  | a :: rest =>
    if p a then some (0, a)
    else (findWithIndex p rest).map (fun ia => (ia.1 + 1, ia.2))

/-- `addAlarm` from `services/alarmService.ts`.  `freshId` stands for the
`generateAlarmId()` result; `newAlarmData` carries the caller-supplied
fields (its `id`, `nextRingTime` and `notificationId` are overwritten,
mirroring the `Omit` type of the source). -/
def addAlarm (granted : Bool) (sched : Alarm → Option String) (freshId : String)
    (now : Nat) (newAlarmData : Alarm) (existingAlarms : List Alarm) :
    List Alarm × List NotifEvent :=
  let newAlarm0 : Alarm :=
    { newAlarmData with id := freshId, nextRingTime := none, notificationId := none }
  let newAlarm1 := { newAlarm0 with nextRingTime := calculateNextRingTime newAlarm0 now }
  let armed :=
    if newAlarm1.active = true ∧ newAlarm1.nextRingTime ≠ none then
      let s := scheduleAlarmNotification granted sched newAlarm1
      ({ newAlarm1 with notificationId := s.1 }, s.2)
    else (newAlarm1, [])
  (existingAlarms ++ [armed.1], armed.2)

/-- `updateAlarm` from `services/alarmService.ts`: hard error when the id
is absent; otherwise cancel the old handle, recompute the ring time and
re-arm when active with a ring time. -/
def updateAlarm (granted : Bool) (sched : Alarm → Option String) (now : Nat)
    (updatedAlarm : Alarm) (existingAlarms : List Alarm) :
    Except String (List Alarm × List NotifEvent) :=
  match findWithIndex (fun a => a.id == updatedAlarm.id) existingAlarms with
  | none => Except.error ("Alarme avec ID " ++ updatedAlarm.id ++ " non trouvee")
  | some (alarmIndex, oldAlarm) =>
    let cancelEvents : List NotifEvent :=
      match oldAlarm.notificationId with
      | some nid => cancelAlarmNotification nid
      | none => []
    let ua := { updatedAlarm with nextRingTime := calculateNextRingTime updatedAlarm now }
    let armed :=
      if ua.active = true ∧ ua.nextRingTime ≠ none then
        let s := scheduleAlarmNotification granted sched ua
        ({ ua with notificationId := s.1 }, s.2)
      else ({ ua with notificationId := none }, [])
    Except.ok (existingAlarms.set alarmIndex armed.1, cancelEvents ++ armed.2)

/-- `toggleAlarm` from `services/alarmService.ts`. -/
def toggleAlarm (granted : Bool) (sched : Alarm → Option String) (now : Nat)
    (alarmId : String) (active : Bool) (existingAlarms : List Alarm) :
    Except String (List Alarm × List NotifEvent) :=
  match findWithIndex (fun a => a.id == alarmId) existingAlarms with
  | none => Except.error ("Alarme avec ID " ++ alarmId ++ " non trouvee")
  | some (alarmIndex, oldAlarm) =>
    let ua0 := { oldAlarm with active := active }
    let step1 :=
      match ua0.notificationId with
      | some nid => ({ ua0 with notificationId := none }, cancelAlarmNotification nid)
      | none => (ua0, ([] : List NotifEvent))
    let ua1 := { step1.1 with nextRingTime := calculateNextRingTime step1.1 now }
    let armed :=
      if active = true ∧ ua1.nextRingTime ≠ none then
        let s := scheduleAlarmNotification granted sched ua1
        ({ ua1 with notificationId := s.1 }, s.2)
      else (ua1, [])
    Except.ok (existingAlarms.set alarmIndex armed.1, step1.2 ++ armed.2)

/-- `deleteAlarm` from `services/alarmService.ts`: tolerated no-op when
the id is absent, otherwise cancel any handle and filter the record out. -/
def deleteAlarm (alarmId : String) (existingAlarms : List Alarm) :
    List Alarm × List NotifEvent :=
  match existingAlarms.find? (fun a => a.id == alarmId) with
  | none => (existingAlarms, [])
  | some alarmToDelete =>
    let cancelEvents : List NotifEvent :=
      match alarmToDelete.notificationId with
      | some nid => cancelAlarmNotification nid
      | none => []
    (existingAlarms.filter (fun a => !(a.id == alarmId)), cancelEvents)

/-- `snoozeAlarm` from `services/alarmService.ts`: silent `null` when the
id is absent; otherwise cancel the current handle, override the ring time
with `now + snoozeDurationMinutes * 60 * 1000`, re-arm, and return the
single updated alarm. -/
def snoozeAlarm (granted : Bool) (sched : Alarm → Option String) (now : Nat)
    (alarmId : String) (snoozeDurationMinutes : Nat) (existingAlarms : List Alarm) :
    Option Alarm × List Alarm × List NotifEvent :=
  match findWithIndex (fun a => a.id == alarmId) existingAlarms with
  | none => (none, existingAlarms, [])
  | some (alarmIndex, alarm) =>
    let cancelEvents : List NotifEvent :=
      match alarm.notificationId with
      | some nid => cancelAlarmNotification nid
      | none => []
    let nextRingTime := now + snoozeDurationMinutes * 60 * 1000
    let ua0 := { alarm with nextRingTime := some nextRingTime }
    let s := scheduleAlarmNotification granted sched ua0
    let ua1 := { ua0 with notificationId := s.1 }
    (some ua1, existingAlarms.set alarmIndex ua1, cancelEvents ++ s.2)

/-- `dismissAlarm` from `services/alarmService.ts`: tolerated no-op when
the id is absent; a repeating alarm is re-armed for its next occurrence,
a one-shot alarm is deactivated. -/
def dismissAlarm (granted : Bool) (sched : Alarm → Option String) (now : Nat)
    (alarmId : String) (existingAlarms : List Alarm) :
    List Alarm × List NotifEvent :=
  match findWithIndex (fun a => a.id == alarmId) existingAlarms with
  | none => (existingAlarms, [])
  | some (alarmIndex, alarm) =>
    let cancelEvents : List NotifEvent :=
      match alarm.notificationId with
      | some nid => cancelAlarmNotification nid
      | none => []
    let ua0 := { alarm with notificationId := none }
    let step :=
      if ua0.repeatDays ≠ [] then
        let ua1 := { ua0 with nextRingTime := calculateNextRingTime ua0 now }
        if ua1.active = true ∧ ua1.nextRingTime ≠ none then
          let s := scheduleAlarmNotification granted sched ua1
          ({ ua1 with notificationId := s.1 }, s.2)
        else (ua1, ([] : List NotifEvent))
      else ({ ua0 with active := false, nextRingTime := none }, [])
    (existingAlarms.set alarmIndex step.1, cancelEvents ++ step.2)

/-- `updateAllAlarmNotifications` from `services/alarmService.ts`: the
refresh that recomputes every ring time and re-arms or disarms each
alarm. -/
def updateAllAlarmNotifications (granted : Bool) (sched : Alarm → Option String)
    (now : Nat) : List Alarm → List Alarm × List NotifEvent
  | [] => ([], [])
  | alarm :: rest =>
    let ua := { alarm with nextRingTime := calculateNextRingTime alarm now }
    let step :=
      if ua.active = true ∧ ua.nextRingTime ≠ none then
        let s := scheduleAlarmNotification granted sched ua
        ({ ua with notificationId := s.1 }, s.2)
      else
        match ua.notificationId with
        | some nid => ({ ua with notificationId := none }, cancelAlarmNotification nid)
        | none => (ua, [])
    let tail := updateAllAlarmNotifications granted sched now rest
    (step.1 :: tail.1, step.2 ++ tail.2)

/-- The record kept by the fold inside `getNextAlarmToRing`: scanning
left to right, keep the earlier alarm unless a strictly smaller ring time
appears.  Stated as a structural recursion to reason about the fold. -/
def firstMinFold : List Alarm → Option Alarm
  | [] => none
  | x :: xs =>
    match firstMinFold xs with
    | none => some x
    | some m =>
      some (if m.nextRingTime.getD 0 < x.nextRingTime.getD 0 then m else x)

/-- The head of the stable insertion sort: the comparator-least element,
preferring the earlier one on ties. -/
def bestOf : List Alarm → Option Alarm
  | [] => none
  | x :: xs =>
    match bestOf xs with
    | none => some x
    | some h => some (if compareAlarms x h ≤ 0 then x else h)

/-- Sort key abstracting the comparator: class 0 = active with a ring
time (keyed by it), class 1 = active without one (keyed by hour/minute),
class 2 = inactive (keyed by hour/minute). -/
def rankOf (a : Alarm) : Nat × Nat × Nat :=
  if a.active = true then
    match a.nextRingTime with
    | some t => (0, t, 0)
    | none => (1, a.hour, a.minute)
  else (2, a.hour, a.minute)

/-- Lexicographic comparison of sort keys. -/
def lexTriple (p q : Nat × Nat × Nat) : Prop :=
  p.1 < q.1 ∨ (p.1 = q.1 ∧ (p.2.1 < q.2.1 ∨ (p.2.1 = q.2.1 ∧ p.2.2 ≤ q.2.2)))

/-- The ordering the spec ascribes to the sorted collection: actives
before inactives, actives ascending by ring time, actives lacking a ring
time after those that have one, inactives ascending by `(hour, minute)`. -/
def specOrdered (a b : Alarm) : Prop :=
  (b.active = true → a.active = true) ∧
  (a.active = true → b.active = true →
    ∀ ta tb, a.nextRingTime = some ta → b.nextRingTime = some tb → ta ≤ tb) ∧
  (a.active = true → b.active = true → a.nextRingTime = none → b.nextRingTime = none) ∧
  (a.active = false → b.active = false →
    (a.hour < b.hour ∨ (a.hour = b.hour ∧ a.minute ≤ b.minute)))

/-- One direction of the documented handle invariant: a stored
notification handle is only present on an active alarm with a ring
time. -/
@[reducible] def handleImpliesArmed (a : Alarm) : Prop :=
  a.notificationId ≠ none → (a.active = true ∧ a.nextRingTime ≠ none)

/-- Frame condition: `new` has the same length as `old` and agrees with
it everywhere except possibly at index `i`. -/
def framedSet (old new : List Alarm) (i : Nat) : Prop :=
  new.length = old.length ∧ ∀ j, j ≠ i → new[j]? = old[j]?

/-! ### Concrete records reused by witnesses and counterexamples -/

def wsRadio : WakeUpSettings := ⟨WakeUpMode.radio, "stream"⟩

def alarmOneShot : Alarm :=
  { id := "a1", name := "wake", hour := 7, minute := 0, active := true,
    repeatDays := [], wakeUpSettings := wsRadio, nextRingTime := none,
    notificationId := none }

def alarmRepeating : Alarm :=
  { id := "a2", name := "wake", hour := 9, minute := 0, active := true,
    repeatDays := [0, 2], wakeUpSettings := wsRadio, nextRingTime := none,
    notificationId := none }

def alarmActiveNoTime : Alarm :=
  { id := "a3", name := "wake", hour := 1, minute := 0, active := true,
    repeatDays := [], wakeUpSettings := wsRadio, nextRingTime := none,
    notificationId := none }

def alarmWithTimeA : Alarm :=
  { id := "a4", name := "wake", hour := 6, minute := 30, active := true,
    repeatDays := [], wakeUpSettings := wsRadio, nextRingTime := some 5000,
    notificationId := some "n4" }

def alarmWithTimeB : Alarm :=
  { id := "a5", name := "wake", hour := 8, minute := 15, active := true,
    repeatDays := [1], wakeUpSettings := wsRadio, nextRingTime := some 3000,
    notificationId := some "n5" }

def alarmInactive : Alarm :=
  { id := "a6", name := "wake", hour := 5, minute := 0, active := false,
    repeatDays := [], wakeUpSettings := wsRadio, nextRingTime := none,
    notificationId := none }

/-! ### Lemmas about the ascending numeric sort of the repeat days -/

theorem mem_insertNat {x y : Nat} {l : List Nat} :
    y ∈ insertNat x l ↔ y = x ∨ y ∈ l := by
  induction l with
  | nil => simp [insertNat]
  | cons z zs ih =>
    by_cases h : x ≤ z
    · simp only [insertNat, if_pos h, List.mem_cons]
    · simp only [insertNat, if_neg h, List.mem_cons, ih]
      tauto

theorem mem_sortNats {y : Nat} {l : List Nat} : y ∈ sortNats l ↔ y ∈ l := by
  induction l with
  | nil => simp [sortNats]
  | cons z zs ih => simp [sortNats, mem_insertNat, ih]

theorem pairwise_insertNat {x : Nat} {l : List Nat}
    (h : l.Pairwise (· ≤ ·)) : (insertNat x l).Pairwise (· ≤ ·) := by
  induction l with
  | nil => simp [insertNat]
  | cons z zs ih =>
    rcases List.pairwise_cons.mp h with ⟨hz, hzs⟩
    by_cases hx : x ≤ z
    · simp only [insertNat, if_pos hx]
      refine List.pairwise_cons.mpr ⟨?_, h⟩
      intro b hb
      rcases List.mem_cons.mp hb with rfl | hb
      · exact hx
      · exact le_trans hx (hz b hb)
    · simp only [insertNat, if_neg hx]
      refine List.pairwise_cons.mpr ⟨?_, ih hzs⟩
      intro b hb
      rcases mem_insertNat.mp hb with rfl | hb
      · omega
      · exact hz b hb

theorem pairwise_sortNats (l : List Nat) : (sortNats l).Pairwise (· ≤ ·) := by
  induction l with
  | nil => simp [sortNats]
  | cons z zs ih => exact pairwise_insertNat ih

theorem sortNats_eq_nil {l : List Nat} : sortNats l = [] ↔ l = [] := by
  induction l with
  | nil => simp [sortNats]
  | cons z zs ih =>
    simp only [sortNats]
    constructor
    · intro h
      cases hs : sortNats zs with
      | nil => rw [hs] at h; simp [insertNat] at h
      | cons w ws =>
        rw [hs] at h
        by_cases hw : z ≤ w <;> simp [insertNat, hw] at h
    · intro h
      cases h

/-- In an ascending list, `find?` of "strictly above `c`" returns a least
element among those strictly above `c`. -/
theorem find_gt_sorted_least {c d : Nat} {s : List Nat}
    (hs : s.Pairwise (· ≤ ·))
    (h : s.find? (fun x => decide (c < x)) = some d) :
    ∀ e ∈ s, c < e → d ≤ e := by
  induction s with
  | nil => simp at h
  | cons z zs ih =>
    rcases List.pairwise_cons.mp hs with ⟨hz, hzs⟩
    by_cases hcz : c < z
    · have hd : d = z := by
        simp [List.find?, hcz] at h
        omega
      subst hd
      intro e he _
      rcases List.mem_cons.mp he with rfl | he
      · exact le_refl _
      · exact hz e he
    · have h' : zs.find? (fun x => decide (c < x)) = some d := by
        simpa [List.find?, hcz] using h
      intro e he hce
      rcases List.mem_cons.mp he with rfl | he
      · omega
      · exact ih hzs h' e he hce

theorem sortNats_head_min {l : List Nat} {d : Nat} {rest : List Nat}
    (h : sortNats l = d :: rest) : ∀ e ∈ l, d ≤ e := by
  intro e he
  have hmem : e ∈ sortNats l := mem_sortNats.mpr he
  rw [h] at hmem
  rcases List.mem_cons.mp hmem with rfl | hmem
  · exact le_refl _
  · have := pairwise_sortNats l
    rw [h] at this
    exact (List.pairwise_cons.mp this).1 e hmem

/-! ### Basic facts about the recurrence calculator -/

theorem now_lt_dayStart_add_msPerDay (now : Nat) : now < dayStart now + msPerDay := by
  simp only [dayStart, msPerDay]
  omega

theorem dayStart_le_alarmTimeTodayOf (now hour minute : Nat) :
    dayStart now ≤ alarmTimeTodayOf now hour minute := by
  simp only [alarmTimeTodayOf, msPerHour, msPerMinute]
  omega

theorem currentAppDay_le_six (now : Nat) : jsWeekDayToAppWeekDay (getDayJs now) ≤ 6 := by
  simp only [jsWeekDayToAppWeekDay, getDayJs]
  omega

theorem one_le_mul_msPerDay {k : Nat} (hk : 1 ≤ k) : msPerDay ≤ k * msPerDay := by
  calc msPerDay = 1 * msPerDay := (one_mul _).symm
  _ ≤ k * msPerDay := Nat.mul_le_mul_right _ hk

/-- Whatever the repeat days, a `some` answer of the calculator is
strictly after `now`. -/
theorem calculateNextRingTime_pos {alarm : Alarm} {now t : Nat}
    (h : calculateNextRingTime alarm now = some t) : now < t := by
  have hday := now_lt_dayStart_add_msPerDay now
  have hatt := dayStart_le_alarmTimeTodayOf now alarm.hour alarm.minute
  have hc6 := currentAppDay_le_six now
  simp only [calculateNextRingTime] at h
  split at h
  · exact absurd h (by simp)
  · split at h
    · split at h
      next hlt =>
        rw [Option.some.injEq] at h
        omega
      next hlt =>
        rw [Option.some.injEq] at h
        omega
    · split at h
      next htoday =>
        rw [Option.some.injEq] at h
        omega
      next htoday =>
        split at h
        next day hf =>
          have hpd : jsWeekDayToAppWeekDay (getDayJs now) < day := by
            have := List.find?_some hf
            simpa using this
          rw [Option.some.injEq] at h
          have h2 := one_le_mul_msPerDay
            (k := day - jsWeekDayToAppWeekDay (getDayJs now)) (by omega)
          omega
        next hf =>
          split at h
          · exact absurd h (by simp)
          next day rest hs =>
            rw [Option.some.injEq] at h
            have h2 := one_le_mul_msPerDay
              (k := 7 - jsWeekDayToAppWeekDay (getDayJs now) + day) (by omega)
            omega

/-- The calculator answers `none` exactly on inactive alarms. -/
theorem calculateNextRingTime_eq_none_iff (alarm : Alarm) (now : Nat) :
    calculateNextRingTime alarm now = none ↔ alarm.active = false := by
  constructor
  · intro h
    by_contra ha
    simp only [calculateNextRingTime] at h
    split at h
    next hact => exact ha hact
    · split at h
      · split at h <;> simp at h
      · split at h
        · simp at h
        next htoday =>
          split at h
          · simp at h
          next hf =>
            split at h
            next hs =>
              have hr : alarm.repeatDays = [] := sortNats_eq_nil.mp hs
              simp [hr] at *
            · simp at h
  · intro h
    simp only [calculateNextRingTime]
    simp [h]

/-! ### Claim C1 -/

/-- C1: for an alarm with `hour ∈ [0,23]` and `minute ∈ [0,59]` and any
reference instant `now`, `calculateNextRingTime` returns `null` iff the
alarm is inactive, and any returned instant is strictly greater than
`now`. -/
theorem C1_nextRingTime_null_iff_inactive_and_future (alarm : Alarm) (now : Nat)
    (hh : alarm.hour ≤ 23) (hm : alarm.minute ≤ 59) :
    (calculateNextRingTime alarm now = none ↔ alarm.active = false) ∧
      (∀ t, calculateNextRingTime alarm now = some t → now < t) :=
  ⟨calculateNextRingTime_eq_none_iff alarm now, fun _ ht => calculateNextRingTime_pos ht⟩

theorem C1_witness :
    (alarmRepeating.hour ≤ 23 ∧ alarmRepeating.minute ≤ 59) ∧
      ((calculateNextRingTime alarmRepeating 1000 = none ↔ alarmRepeating.active = false) ∧
        (∀ t, calculateNextRingTime alarmRepeating 1000 = some t → 1000 < t)) :=
  ⟨by decide,
    C1_nextRingTime_null_iff_inactive_and_future alarmRepeating 1000 (by decide) (by decide)⟩

/-! ### Claim C2 -/

/-- C2: for an active alarm with non-empty `repeatDays`, writing `c` for
the Monday-based weekday of `now` and `att` for today at `hour:minute`:
if `c ∈ repeatDays` and `att` is strictly after `now` the result is
`att`; otherwise, if a day strictly greater than `c` exists in
`repeatDays`, the result is `att + (d - c)` days for the smallest such
`d`; otherwise the result wraps to the smallest day `m` of `repeatDays`
with offset `7 - c + m` days. -/
theorem C2_repeating_branch_formulas (alarm : Alarm) (now : Nat)
    (hact : alarm.active = true) (hrep : alarm.repeatDays ≠ []) :
    (jsWeekDayToAppWeekDay (getDayJs now) ∈ alarm.repeatDays ∧
        now < alarmTimeTodayOf now alarm.hour alarm.minute →
      calculateNextRingTime alarm now =
        some (alarmTimeTodayOf now alarm.hour alarm.minute)) ∧
    (¬ (jsWeekDayToAppWeekDay (getDayJs now) ∈ alarm.repeatDays ∧
          now < alarmTimeTodayOf now alarm.hour alarm.minute) →
      ∀ d ∈ alarm.repeatDays, jsWeekDayToAppWeekDay (getDayJs now) < d →
        (∀ e ∈ alarm.repeatDays, jsWeekDayToAppWeekDay (getDayJs now) < e → d ≤ e) →
        calculateNextRingTime alarm now =
          some (alarmTimeTodayOf now alarm.hour alarm.minute +
            (d - jsWeekDayToAppWeekDay (getDayJs now)) * msPerDay)) ∧
    (¬ (jsWeekDayToAppWeekDay (getDayJs now) ∈ alarm.repeatDays ∧
          now < alarmTimeTodayOf now alarm.hour alarm.minute) →
      (∀ e ∈ alarm.repeatDays, ¬ jsWeekDayToAppWeekDay (getDayJs now) < e) →
      ∀ m ∈ alarm.repeatDays, (∀ e ∈ alarm.repeatDays, m ≤ e) →
        calculateNextRingTime alarm now =
          some (alarmTimeTodayOf now alarm.hour alarm.minute +
            (7 - jsWeekDayToAppWeekDay (getDayJs now) + m) * msPerDay)) := by
  have hsorted := pairwise_sortNats alarm.repeatDays
  refine ⟨?_, ?_, ?_⟩
  · intro htoday
    simp only [calculateNextRingTime, hact, hrep]
    have hmem : jsWeekDayToAppWeekDay (getDayJs now) ∈ sortNats alarm.repeatDays :=
      mem_sortNats.mpr htoday.1
    simp [hmem, htoday.1, htoday.2]
  · intro htoday d hd hcd hleast
    simp only [calculateNextRingTime, hact, hrep]
    have hcond : ¬ (jsWeekDayToAppWeekDay (getDayJs now) ∈ sortNats alarm.repeatDays ∧
        now < alarmTimeTodayOf now alarm.hour alarm.minute) := by
      rw [mem_sortNats]
      exact htoday
    simp only [if_neg hcond, if_neg (by simp : ¬ (true = false)), if_neg hrep]
    cases hf : (sortNats alarm.repeatDays).find?
        (fun x => decide (jsWeekDayToAppWeekDay (getDayJs now) < x)) with
    | some d' =>
      have hd'mem : d' ∈ alarm.repeatDays :=
        mem_sortNats.mp (List.mem_of_find?_eq_some hf)
      have hcd' : jsWeekDayToAppWeekDay (getDayJs now) < d' := by
        have := List.find?_some hf
        simpa using this
      have h1 : d' ≤ d :=
        find_gt_sorted_least hsorted hf d (mem_sortNats.mpr hd) hcd
      have h2 : d ≤ d' := hleast d' hd'mem hcd'
      have : d' = d := le_antisymm h1 h2
      simp [this]
    | none =>
      have : ∀ e ∈ sortNats alarm.repeatDays,
          ¬ jsWeekDayToAppWeekDay (getDayJs now) < e := by
        intro e he
        have := List.find?_eq_none.mp hf e he
        simpa using this
      exact absurd hcd (this d (mem_sortNats.mpr hd))
  · intro htoday hnone m hm hmin
    simp only [calculateNextRingTime, hact, hrep]
    have hcond : ¬ (jsWeekDayToAppWeekDay (getDayJs now) ∈ sortNats alarm.repeatDays ∧
        now < alarmTimeTodayOf now alarm.hour alarm.minute) := by
      rw [mem_sortNats]
      exact htoday
    simp only [if_neg hcond, if_neg (by simp : ¬ (true = false)), if_neg hrep]
    have hf : (sortNats alarm.repeatDays).find?
        (fun x => decide (jsWeekDayToAppWeekDay (getDayJs now) < x)) = none := by
      rw [List.find?_eq_none]
      intro x hx
      simpa using hnone x (mem_sortNats.mp hx)
    rw [hf]
    cases hs : sortNats alarm.repeatDays with
    | nil => exact absurd (sortNats_eq_nil.mp hs) hrep
    | cons day rest =>
      have hdaymem : day ∈ alarm.repeatDays := by
        have : day ∈ sortNats alarm.repeatDays := by rw [hs]; exact List.mem_cons_self _ _
        exact mem_sortNats.mp this
      have h1 : day ≤ m := sortNats_head_min hs m hm
      have h2 : m ≤ day := hmin day hdaymem
      have : day = m := le_antisymm h1 h2
      simp [this]

theorem C2_witness :
    (alarmRepeating.active = true ∧ alarmRepeating.repeatDays ≠ []) ∧
      (jsWeekDayToAppWeekDay (getDayJs (8 * msPerHour)) ∈ alarmRepeating.repeatDays ∧
          8 * msPerHour < alarmTimeTodayOf (8 * msPerHour) alarmRepeating.hour
            alarmRepeating.minute →
        calculateNextRingTime alarmRepeating (8 * msPerHour) =
          some (alarmTimeTodayOf (8 * msPerHour) alarmRepeating.hour
            alarmRepeating.minute)) ∧
      calculateNextRingTime alarmRepeating (8 * msPerHour) = some (9 * msPerHour) := by
  have h := C2_repeating_branch_formulas alarmRepeating (8 * msPerHour)
    (by decide) (by decide)
  refine ⟨⟨by decide, by decide⟩, h.1, ?_⟩
  have := h.1 (by decide)
  rw [this]
  decide

/-! ### Claim C3 -/

/-- C3: an active one-shot alarm rings today at `hour:minute` when that
instant is strictly after `now` and otherwise the next calendar day at
the same time; in particular when today's slot equals `now` exactly, the
result is tomorrow. -/
theorem C3_oneShot_today_or_tomorrow (alarm : Alarm) (now : Nat)
    (hact : alarm.active = true) (hrep : alarm.repeatDays = []) :
    calculateNextRingTime alarm now =
      (if now < alarmTimeTodayOf now alarm.hour alarm.minute
        then some (alarmTimeTodayOf now alarm.hour alarm.minute)
        else some (alarmTimeTodayOf now alarm.hour alarm.minute + msPerDay)) ∧
    (alarmTimeTodayOf now alarm.hour alarm.minute = now →
      calculateNextRingTime alarm now =
        some (alarmTimeTodayOf now alarm.hour alarm.minute + msPerDay)) := by
  constructor
  · simp only [calculateNextRingTime, hact, hrep]
    simp
  · intro heq
    simp only [calculateNextRingTime, hact, hrep]
    have : ¬ now < alarmTimeTodayOf now alarm.hour alarm.minute := by omega
    simp [this]

theorem C3_witness :
    (alarmOneShot.active = true ∧ alarmOneShot.repeatDays = []) ∧
      (calculateNextRingTime alarmOneShot (8 * msPerHour) =
        (if 8 * msPerHour < alarmTimeTodayOf (8 * msPerHour) alarmOneShot.hour
            alarmOneShot.minute
          then some (alarmTimeTodayOf (8 * msPerHour) alarmOneShot.hour alarmOneShot.minute)
          else some (alarmTimeTodayOf (8 * msPerHour) alarmOneShot.hour alarmOneShot.minute
            + msPerDay))) ∧
      calculateNextRingTime alarmOneShot (7 * msPerHour) =
        some (7 * msPerHour + msPerDay) := by
  refine ⟨⟨by decide, by decide⟩,
    (C3_oneShot_today_or_tomorrow alarmOneShot (8 * msPerHour) (by decide) (by decide)).1, ?_⟩
  have := (C3_oneShot_today_or_tomorrow alarmOneShot (7 * msPerHour)
    (by decide) (by decide)).2 (by decide)
  rw [this]
  decide

/-! ### The comparator of `sortAlarmsByNextRingTime` is a total preorder -/

theorem compareAlarms_active_inactive {x y : Alarm}
    (hx : x.active = true) (hy : y.active = false) : compareAlarms x y = -1 := by
  simp [compareAlarms, hx, hy]

theorem compareAlarms_inactive_active {x y : Alarm}
    (hx : x.active = false) (hy : y.active = true) : compareAlarms x y = 1 := by
  simp [compareAlarms, hx, hy]

theorem compareAlarms_both_some {x y : Alarm} {tx ty : Nat}
    (hx : x.active = true) (hy : y.active = true)
    (hnx : x.nextRingTime = some tx) (hny : y.nextRingTime = some ty) :
    compareAlarms x y = (tx : Int) - (ty : Int) := by
  simp [compareAlarms, hx, hy, hnx, hny]

theorem compareAlarms_le_iff (a b : Alarm) :
    compareAlarms a b ≤ 0 ↔ lexTriple (rankOf a) (rankOf b) := by
  cases ha : a.active <;> cases hb : b.active <;>
    cases hna : a.nextRingTime <;> cases hnb : b.nextRingTime <;>
      simp [compareAlarms, hourMinuteCmp, rankOf, lexTriple, ha, hb, hna, hnb] <;>
        (try split_ifs) <;> omega

theorem compareAlarms_total (a b : Alarm) :
    compareAlarms a b ≤ 0 ∨ compareAlarms b a ≤ 0 := by
  rw [compareAlarms_le_iff, compareAlarms_le_iff]
  simp only [lexTriple]
  omega

theorem compareAlarms_trans {a b c : Alarm}
    (hab : compareAlarms a b ≤ 0) (hbc : compareAlarms b c ≤ 0) :
    compareAlarms a c ≤ 0 := by
  rw [compareAlarms_le_iff] at hab hbc ⊢
  simp only [lexTriple] at hab hbc ⊢
  omega

/-! ### The stable insertion sort: permutation, sortedness, head -/

theorem perm_insertAlarm (x : Alarm) (l : List Alarm) :
    (insertAlarm x l).Perm (x :: l) := by
  induction l with
  | nil => exact List.Perm.refl _
  | cons y ys ih =>
    by_cases h : compareAlarms x y ≤ 0
    · simp only [insertAlarm, if_pos h]
      exact List.Perm.refl _
    · simp only [insertAlarm, if_neg h]
      exact (ih.cons y).trans (List.Perm.swap x y ys)

theorem perm_sortAlarms (l : List Alarm) :
    (sortAlarmsByNextRingTime l).Perm l := by
  induction l with
  | nil => exact List.Perm.refl _
  | cons x xs ih =>
    simp only [sortAlarmsByNextRingTime]
    exact (perm_insertAlarm x _).trans (ih.cons x)

theorem pairwise_insertAlarm {x : Alarm} {l : List Alarm}
    (h : l.Pairwise (fun a b => compareAlarms a b ≤ 0)) :
    (insertAlarm x l).Pairwise (fun a b => compareAlarms a b ≤ 0) := by
  induction l with
  | nil => simp [insertAlarm]
  | cons y ys ih =>
    rcases List.pairwise_cons.mp h with ⟨hy, hys⟩
    by_cases hx : compareAlarms x y ≤ 0
    · simp only [insertAlarm, if_pos hx]
      refine List.pairwise_cons.mpr ⟨?_, h⟩
      intro b hb
      rcases List.mem_cons.mp hb with rfl | hb
      · exact hx
      · exact compareAlarms_trans hx (hy b hb)
    · simp only [insertAlarm, if_neg hx]
      refine List.pairwise_cons.mpr ⟨?_, ih hys⟩
      intro b hb
      have hb' := (perm_insertAlarm x ys).mem_iff.mp hb
      rcases List.mem_cons.mp hb' with rfl | hb'
      · rcases compareAlarms_total b y with hl | hr
        · exact absurd hl hx
        · exact hr
      · exact hy b hb'

theorem pairwise_sortAlarms (l : List Alarm) :
    (sortAlarmsByNextRingTime l).Pairwise (fun a b => compareAlarms a b ≤ 0) := by
  induction l with
  | nil => simp [sortAlarmsByNextRingTime]
  | cons x xs ih => exact pairwise_insertAlarm ih

theorem head_sortAlarms (l : List Alarm) :
    (sortAlarmsByNextRingTime l).head? = bestOf l := by
  induction l with
  | nil => rfl
  | cons x xs ih =>
    simp only [sortAlarmsByNextRingTime, bestOf]
    cases hs : sortAlarmsByNextRingTime xs with
    | nil =>
      rw [hs] at ih
      rw [← ih]
      simp [insertAlarm]
    | cons y ys =>
      rw [hs] at ih
      rw [← ih]
      by_cases hc : compareAlarms x y ≤ 0 <;> simp [insertAlarm, hc]

theorem bestOf_eq_none {l : List Alarm} : bestOf l = none ↔ l = [] := by
  cases l with
  | nil => simp [bestOf]
  | cons x xs =>
    simp only [bestOf]
    cases bestOf xs <;> simp

theorem bestOf_mem {l : List Alarm} {h : Alarm} (hb : bestOf l = some h) : h ∈ l := by
  induction l generalizing h with
  | nil => simp [bestOf] at hb
  | cons x xs ih =>
    simp only [bestOf] at hb
    cases hx : bestOf xs with
    | none =>
      rw [hx] at hb
      simp only [Option.some.injEq] at hb
      exact hb ▸ List.mem_cons_self x xs
    | some h' =>
      rw [hx] at hb
      simp only [Option.some.injEq] at hb
      by_cases hc : compareAlarms x h' ≤ 0
      · rw [if_pos hc] at hb
        exact hb ▸ List.mem_cons_self x xs
      · rw [if_neg hc] at hb
        exact List.mem_cons_of_mem x (hb ▸ ih hx)

theorem bestOf_active {l : List Alarm} {h : Alarm} (hb : bestOf l = some h) :
    ∀ a ∈ l, a.active = true → h.active = true := by
  induction l generalizing h with
  | nil => simp [bestOf] at hb
  | cons x xs ih =>
    intro a ha hact
    simp only [bestOf] at hb
    cases hx : bestOf xs with
    | none =>
      rw [hx] at hb
      simp only [Option.some.injEq] at hb
      have hxs : xs = [] := bestOf_eq_none.mp hx
      subst hxs
      rcases List.mem_cons.mp ha with rfl | ha
      · exact hb ▸ hact
      · simp at ha
    | some h' =>
      rw [hx] at hb
      simp only [Option.some.injEq] at hb
      cases hxact : x.active with
      | true =>
        by_cases hc : compareAlarms x h' ≤ 0
        · rw [if_pos hc] at hb
          exact hb ▸ hxact
        · rw [if_neg hc] at hb
          cases hh' : h'.active with
          | true => exact hb ▸ hh'
          | false =>
            have := compareAlarms_active_inactive hxact hh'
            omega
      | false =>
        have haxs : a ∈ xs := by
          rcases List.mem_cons.mp ha with rfl | h''
          · rw [hxact] at hact
            cases hact
          · exact h''
        have hh' : h'.active = true := ih hx a haxs hact
        have hcmp := compareAlarms_inactive_active hxact hh'
        have hc : ¬ compareAlarms x h' ≤ 0 := by omega
        rw [if_neg hc] at hb
        exact hb ▸ hh'

/-! ### The reduce inside `getNextAlarmToRing` -/

theorem firstMinFold_mem {L : List Alarm} {m : Alarm}
    (h : firstMinFold L = some m) : m ∈ L := by
  induction L generalizing m with
  | nil => simp [firstMinFold] at h
  | cons x xs ih =>
    simp only [firstMinFold] at h
    cases hx : firstMinFold xs with
    | none =>
      rw [hx] at h
      simp only [Option.some.injEq] at h
      exact h ▸ List.mem_cons_self x xs
    | some m' =>
      rw [hx] at h
      simp only [Option.some.injEq] at h
      by_cases hc : m'.nextRingTime.getD 0 < x.nextRingTime.getD 0
      · rw [if_pos hc] at h
        exact List.mem_cons_of_mem x (h ▸ ih hx)
      · rw [if_neg hc] at h
        exact h ▸ List.mem_cons_self x xs

theorem foldl_nextAlarmReducer_spec (L : List Alarm) (a : Alarm)
    (hL : ∀ b ∈ L, b.nextRingTime ≠ none) (ha : a.nextRingTime ≠ none) :
    L.foldl nextAlarmReducer a =
      (match firstMinFold L with
        | none => a
        | some m =>
          if m.nextRingTime.getD 0 < a.nextRingTime.getD 0 then m else a) := by
  induction L generalizing a with
  | nil => rfl
  | cons x xs ih =>
    have hx : x.nextRingTime ≠ none := hL x (List.mem_cons_self x xs)
    obtain ⟨ta, hta⟩ := Option.ne_none_iff_exists'.mp ha
    obtain ⟨tx, htx⟩ := Option.ne_none_iff_exists'.mp hx
    have hLxs : ∀ b ∈ xs, b.nextRingTime ≠ none :=
      fun b hb => hL b (List.mem_cons_of_mem _ hb)
    have hred : nextAlarmReducer a x = if tx < ta then x else a := by
      simp [nextAlarmReducer, hta, htx]
    have hrne : (nextAlarmReducer a x).nextRingTime ≠ none := by
      rw [hred]
      split_ifs <;> simp [hta, htx]
    rw [List.foldl_cons, ih (nextAlarmReducer a x) hLxs hrne]
    simp only [firstMinFold]
    cases hfm : firstMinFold xs with
    | none => simp [hred, hta, htx]
    | some m =>
      obtain ⟨tm, htm⟩ := Option.ne_none_iff_exists'.mp
        (hLxs m (firstMinFold_mem hfm))
      simp only [hred, hta, htx, htm, Option.getD_some]
      split_ifs <;> simp_all [hta, htx, htm] <;> omega

theorem getNextAlarmToRing_eq_firstMinFold (alarms : List Alarm) :
    getNextAlarmToRing alarms = firstMinFold (alarms.filter isActiveWithTime) := by
  unfold getNextAlarmToRing
  cases hF : alarms.filter isActiveWithTime with
  | nil => simp [firstMinFold]
  | cons a0 rest =>
    have hall : ∀ b ∈ a0 :: rest, b.nextRingTime ≠ none := by
      intro b hb
      have hbmem : b ∈ alarms.filter isActiveWithTime := by rw [hF]; exact hb
      have := (List.mem_filter.mp hbmem).2
      simp only [isActiveWithTime, Bool.and_eq_true, Option.isSome_iff_exists] at this
      rcases this.2 with ⟨t, ht⟩
      simp [ht]
    have ha0 : a0.nextRingTime ≠ none := hall a0 (List.mem_cons_self _ _)
    obtain ⟨t0, ht0⟩ := Option.ne_none_iff_exists'.mp ha0
    have hr : nextAlarmReducer a0 a0 = a0 := by
      simp [nextAlarmReducer, ht0]
    simp only [List.foldl_cons, hr]
    rw [foldl_nextAlarmReducer_spec rest a0
      (fun b hb => hall b (List.mem_cons_of_mem _ hb)) ha0]
    simp only [firstMinFold]
    cases hfm : firstMinFold rest with
    | none => simp
    | some m => simp

theorem firstMinFold_filter_eq_bestOf_proj (l : List Alarm)
    (H : ∀ a ∈ l, a.active = true → a.nextRingTime ≠ none) :
    firstMinFold (l.filter isActiveWithTime) =
      (match bestOf l with
        | none => none
        | some h => if h.active = true then some h else none) := by
  induction l with
  | nil => rfl
  | cons x xs ih =>
    have Hxs : ∀ a ∈ xs, a.active = true → a.nextRingTime ≠ none :=
      fun a ha => H a (List.mem_cons_of_mem _ ha)
    have ihx := ih Hxs
    simp only [bestOf]
    cases hbx : bestOf xs with
    | none =>
      have hxs : xs = [] := bestOf_eq_none.mp hbx
      subst hxs
      cases hxact : x.active with
      | true =>
        have hnx : x.nextRingTime ≠ none := H x (List.mem_cons_self _ _) hxact
        have hfx : isActiveWithTime x = true := by
          simp [isActiveWithTime, hxact, Option.isSome_iff_ne_none, hnx]
        simp [List.filter, hfx, firstMinFold, hxact]
      | false =>
        have hfx : isActiveWithTime x = false := by
          simp [isActiveWithTime, hxact]
        simp [List.filter, hfx, firstMinFold, hxact]
    | some h =>
      cases hxact : x.active with
      | false =>
        have hfx : isActiveWithTime x = false := by
          simp [isActiveWithTime, hxact]
        have hfilter : (x :: xs).filter isActiveWithTime = xs.filter isActiveWithTime := by
          simp [List.filter_cons, hfx]
        rw [hfilter, ihx, hbx]
        cases hh : h.active with
        | true =>
          have hcmp := compareAlarms_inactive_active hxact hh
          have hc : ¬ compareAlarms x h ≤ 0 := by omega
          simp [if_neg hc, hh]
        | false =>
          have hxh : (if compareAlarms x h ≤ 0 then x else h).active = false := by
            split_ifs <;> assumption
          simp [hh, hxh]
      | true =>
        have hnx : x.nextRingTime ≠ none := H x (List.mem_cons_self _ _) hxact
        obtain ⟨tx, htx⟩ := Option.ne_none_iff_exists'.mp hnx
        have hfx : isActiveWithTime x = true := by
          simp [isActiveWithTime, hxact, htx]
        have hfilter : (x :: xs).filter isActiveWithTime
            = x :: xs.filter isActiveWithTime := by
          simp [List.filter_cons, hfx]
        rw [hfilter]
        simp only [firstMinFold]
        rw [ihx, hbx]
        cases hh : h.active with
        | false =>
          have hcmp := compareAlarms_active_inactive hxact hh
          have hc : compareAlarms x h ≤ 0 := by omega
          simp [if_pos hc, hxact, hh]
        | true =>
          have hnh : h.nextRingTime ≠ none := Hxs h (bestOf_mem hbx) hh
          obtain ⟨th, hth⟩ := Option.ne_none_iff_exists'.mp hnh
          have hcmp := compareAlarms_both_some hxact hh htx hth
          by_cases hlt : th < tx
          · have hc : ¬ compareAlarms x h ≤ 0 := by omega
            simp [if_neg hc, hh, hth, htx, Option.getD_some, if_pos hlt]
          · have hc : compareAlarms x h ≤ 0 := by omega
            simp [if_pos hc, hxact, hh, hth, htx, Option.getD_some, if_neg hlt]

/-! ### Claim C5 -/

/-- C5 (amended): on any collection in which every active alarm has a
`nextRingTime` (the documented invariant), `getNextAlarmToRing` agrees
with the rule "first element of the collection sorted by
`sortAlarmsByNextRingTime`, if that element is active, else null". -/
theorem C5_getNext_refines_sorted_head (alarms : List Alarm)
    (H : ∀ a ∈ alarms, a.active = true → a.nextRingTime ≠ none) :
    getNextAlarmToRing alarms = nextAlarmSpecRule alarms := by
  rw [getNextAlarmToRing_eq_firstMinFold,
    firstMinFold_filter_eq_bestOf_proj alarms H]
  unfold nextAlarmSpecRule
  rw [head_sortAlarms]

/-- C5 counterexample: for a collection whose only alarm is active with a
null `nextRingTime`, `getNextAlarmToRing` returns null while the sorted
collection starts with that active alarm, so the spec rule returns it. -/
theorem C5_counterexample :
    ¬ (getNextAlarmToRing [alarmActiveNoTime] = nextAlarmSpecRule [alarmActiveNoTime]) := by
  decide

theorem C5_witness :
    (∀ a ∈ [alarmWithTimeA, alarmInactive, alarmWithTimeB],
        a.active = true → a.nextRingTime ≠ none) ∧
      getNextAlarmToRing [alarmWithTimeA, alarmInactive, alarmWithTimeB] =
        nextAlarmSpecRule [alarmWithTimeA, alarmInactive, alarmWithTimeB] :=
  ⟨by decide,
    C5_getNext_refines_sorted_head [alarmWithTimeA, alarmInactive, alarmWithTimeB]
      (by decide)⟩

/-! ### Claim C6 -/

theorem compareAlarms_le_implies_specOrdered {a b : Alarm}
    (h : compareAlarms a b ≤ 0) : specOrdered a b := by
  refine ⟨?_, ?_, ?_, ?_⟩
  · intro hb
    cases ha : a.active with
    | true => rfl
    | false =>
      have := compareAlarms_inactive_active ha hb
      omega
  · intro ha hb ta tb hta htb
    have := compareAlarms_both_some ha hb hta htb
    omega
  · intro ha hb hna
    cases hnb : b.nextRingTime with
    | none => rfl
    | some tb =>
      have : compareAlarms a b = 1 := by
        simp [compareAlarms, ha, hb, hna, hnb]
      omega
  · intro ha hb
    have : compareAlarms a b = hourMinuteCmp a b := by
      simp [compareAlarms, ha, hb]
    rw [this] at h
    simp only [hourMinuteCmp] at h
    split_ifs at h <;> omega

/-- C6: `sortAlarmsByNextRingTime` reorders the collection (it is a
permutation of the input) so that every earlier/later pair satisfies the
spec's total order: actives before inactives; actives with a ring time
ascending by it; actives lacking a ring time after those that have one;
inactives ascending by `(hour, minute)`. -/
theorem C6_sort_establishes_spec_order (alarms : List Alarm) :
    (sortAlarmsByNextRingTime alarms).Perm alarms ∧
      (sortAlarmsByNextRingTime alarms).Pairwise specOrdered :=
  ⟨perm_sortAlarms alarms,
    (pairwise_sortAlarms alarms).imp (fun h => compareAlarms_le_implies_specOrdered h)⟩

/-! ### Locating an alarm by id -/

theorem findWithIndex_eq_none {p : Alarm → Bool} {l : List Alarm}
    (h : ∀ a ∈ l, p a = false) : findWithIndex p l = none := by
  induction l with
  | nil => rfl
  | cons x xs ih =>
    have hx := h x (List.mem_cons_self x xs)
    simp [findWithIndex, hx, ih (fun a ha => h a (List.mem_cons_of_mem _ ha))]

theorem findWithIndex_some {p : Alarm → Bool} {l : List Alarm} {i : Nat} {a : Alarm}
    (h : findWithIndex p l = some (i, a)) :
    l[i]? = some a ∧ p a = true := by
  induction l generalizing i with
  | nil => simp [findWithIndex] at h
  | cons x xs ih =>
    by_cases hx : p x
    · simp only [findWithIndex, if_pos hx, Option.some.injEq] at h
      obtain ⟨rfl, rfl⟩ := Prod.mk.injEq _ _ _ _ ▸ h
      exact ⟨by simp, hx⟩
    · simp only [findWithIndex, if_neg hx] at h
      cases hfx : findWithIndex p xs with
      | none => rw [hfx] at h; simp at h
      | some ia =>
        obtain ⟨j, b⟩ := ia
        rw [hfx] at h
        simp only [Option.map_some', Option.some.injEq] at h
        obtain ⟨rfl, rfl⟩ := Prod.mk.injEq _ _ _ _ ▸ h
        have := ih hfx
        simpa using this

theorem find?_of_findWithIndex {p : Alarm → Bool} {l : List Alarm} {i : Nat} {a : Alarm}
    (h : findWithIndex p l = some (i, a)) : l.find? p = some a := by
  induction l generalizing i with
  | nil => simp [findWithIndex] at h
  | cons x xs ih =>
    by_cases hx : p x
    · simp only [findWithIndex, if_pos hx, Option.some.injEq] at h
      obtain ⟨rfl, rfl⟩ := Prod.mk.injEq _ _ _ _ ▸ h
      simp [List.find?, hx]
    · simp only [findWithIndex, if_neg hx] at h
      cases hfx : findWithIndex p xs with
      | none => rw [hfx] at h; simp at h
      | some ia =>
        obtain ⟨j, b⟩ := ia
        rw [hfx] at h
        simp only [Option.map_some', Option.some.injEq] at h
        obtain ⟨rfl, rfl⟩ := Prod.mk.injEq _ _ _ _ ▸ h
        have hx' : p x = false := by simpa using hx
        simp [List.find?, hx', ih hfx]

/-! ### Claim C9 -/

/-- C9: when the targeted id is absent, `updateAlarm` and `toggleAlarm`
raise an error, `deleteAlarm` and `dismissAlarm` return the collection
unchanged, `snoozeAlarm` returns null, and in every case the persisted
collection is untouched and no notification call (arm or cancel) is
made. -/
theorem C9_absent_id_is_error_or_noop (granted : Bool) (sched : Alarm → Option String)
    (now : Nat) (targetId : String) (d : Nat) (ua : Alarm)
    (existingAlarms : List Alarm)
    (hua : ua.id = targetId)
    (habs : ∀ a ∈ existingAlarms, a.id ≠ targetId) :
    (∃ msg, updateAlarm granted sched now ua existingAlarms = Except.error msg) ∧
    (∀ b, ∃ msg,
      toggleAlarm granted sched now targetId b existingAlarms = Except.error msg) ∧
    deleteAlarm targetId existingAlarms = (existingAlarms, []) ∧
    dismissAlarm granted sched now targetId existingAlarms = (existingAlarms, []) ∧
    snoozeAlarm granted sched now targetId d existingAlarms =
      (none, existingAlarms, []) := by
  have hfalse : ∀ a ∈ existingAlarms, (a.id == targetId) = false := by
    intro a ha
    exact beq_eq_false_iff_ne.mpr (habs a ha)
  have hfw : findWithIndex (fun a => a.id == targetId) existingAlarms = none :=
    findWithIndex_eq_none hfalse
  refine ⟨?_, ?_, ?_, ?_, ?_⟩
  · unfold updateAlarm
    rw [hua, hfw]
    exact ⟨_, rfl⟩
  · intro b
    unfold toggleAlarm
    rw [hfw]
    exact ⟨_, rfl⟩
  · unfold deleteAlarm
    rw [List.find?_eq_none.mpr (fun x hx => by simp [hfalse x hx])]
  · unfold dismissAlarm
    rw [hfw]
  · unfold snoozeAlarm
    rw [hfw]

theorem C9_witness :
    (({ alarmOneShot with id := "zz" } : Alarm).id = "zz" ∧
      ∀ a ∈ [alarmWithTimeA], a.id ≠ "zz") ∧
    (∃ msg, updateAlarm true (fun _ => some "n") 0 { alarmOneShot with id := "zz" }
      [alarmWithTimeA] = Except.error msg) ∧
    (∀ b, ∃ msg, toggleAlarm true (fun _ => some "n") 0 "zz" b [alarmWithTimeA] =
      Except.error msg) ∧
    deleteAlarm "zz" [alarmWithTimeA] = ([alarmWithTimeA], []) ∧
    dismissAlarm true (fun _ => some "n") 0 "zz" [alarmWithTimeA] =
      ([alarmWithTimeA], []) ∧
    snoozeAlarm true (fun _ => some "n") 0 "zz" 9 [alarmWithTimeA] =
      (none, [alarmWithTimeA], []) :=
  ⟨⟨by decide, by decide⟩,
    C9_absent_id_is_error_or_noop true (fun _ => some "n") 0 "zz" 9
      { alarmOneShot with id := "zz" } [alarmWithTimeA] (by decide) (by decide)⟩

/-! ### Claim C10 -/

theorem framedSet_set (l : List Alarm) (i : Nat) (u : Alarm) :
    framedSet l (l.set i u) i := by
  refine ⟨by simp, ?_⟩
  intro j hj
  exact List.getElem?_set_ne (Ne.symm hj)

theorem filter_ne_eq_eraseIdx {targetId : String} {l : List Alarm} {i : Nat} {a : Alarm}
    (hnd : (l.map (fun x => x.id)).Nodup)
    (hfw : findWithIndex (fun x => x.id == targetId) l = some (i, a)) :
    l.filter (fun x => !(x.id == targetId)) = l.eraseIdx i := by
  induction l generalizing i with
  | nil => simp [findWithIndex] at hfw
  | cons x xs ih =>
    rw [List.map_cons, List.nodup_cons] at hnd
    obtain ⟨hxnotin, hndxs⟩ := hnd
    by_cases hx : (x.id == targetId) = true
    · have hxid : x.id = targetId := by simpa using hx
      simp only [findWithIndex, if_pos hx, Option.some.injEq] at hfw
      obtain ⟨rfl, rfl⟩ := Prod.mk.injEq _ _ _ _ ▸ hfw
      have hxs : ∀ y ∈ xs, (!(y.id == targetId)) = true := by
        intro y hy
        have : y.id ≠ x.id := by
          intro hcontra
          exact hxnotin (hcontra ▸ List.mem_map_of_mem (fun z => z.id) hy)
        simp [hxid ▸ this]
      simp only [List.filter_cons, hx, Bool.not_true, List.eraseIdx_cons_zero]
      exact List.filter_eq_self.mpr hxs
    · have hx' : (x.id == targetId) = false := by simpa using hx
      simp only [findWithIndex, if_neg hx] at hfw
      cases hfx : findWithIndex (fun y => y.id == targetId) xs with
      | none => rw [hfx] at hfw; simp at hfw
      | some ia =>
        obtain ⟨j, b⟩ := ia
        rw [hfx] at hfw
        simp only [Option.map_some', Option.some.injEq] at hfw
        obtain ⟨rfl, rfl⟩ := Prod.mk.injEq _ _ _ _ ▸ hfw
        simp only [List.filter_cons, hx', Bool.not_false, List.eraseIdx_cons_succ]
        rw [ih hndxs hfx]
        simp

/-- C10: `updateAlarm`, `toggleAlarm`, `snoozeAlarm` and `dismissAlarm`
rewrite only the record at the found index — the output is `set i u` on
the input, so every other record keeps its position and value;
`deleteAlarm` (on a collection with pairwise distinct ids) removes
exactly the record at the found index; `addAlarm` appends one record and
leaves the rest untouched. -/
theorem C10_frame_effects (granted : Bool) (sched : Alarm → Option String) (now : Nat) :
    (∀ (ua : Alarm) (existing : List Alarm) (i : Nat) (a : Alarm),
      findWithIndex (fun x => x.id == ua.id) existing = some (i, a) →
      ∃ u evs, updateAlarm granted sched now ua existing =
          Except.ok (existing.set i u, evs) ∧
        framedSet existing (existing.set i u) i) ∧
    (∀ (targetId : String) (b : Bool) (existing : List Alarm) (i : Nat) (a : Alarm),
      findWithIndex (fun x => x.id == targetId) existing = some (i, a) →
      ∃ u evs, toggleAlarm granted sched now targetId b existing =
          Except.ok (existing.set i u, evs) ∧
        framedSet existing (existing.set i u) i) ∧
    (∀ (targetId : String) (d : Nat) (existing : List Alarm) (i : Nat) (a : Alarm),
      findWithIndex (fun x => x.id == targetId) existing = some (i, a) →
      ∃ u evs, snoozeAlarm granted sched now targetId d existing =
          (some u, existing.set i u, evs) ∧
        framedSet existing (existing.set i u) i) ∧
    (∀ (targetId : String) (existing : List Alarm) (i : Nat) (a : Alarm),
      findWithIndex (fun x => x.id == targetId) existing = some (i, a) →
      ∃ u evs, dismissAlarm granted sched now targetId existing =
          (existing.set i u, evs) ∧
        framedSet existing (existing.set i u) i) ∧
    (∀ (targetId : String) (existing : List Alarm) (i : Nat) (a : Alarm),
      (existing.map (fun x => x.id)).Nodup →
      findWithIndex (fun x => x.id == targetId) existing = some (i, a) →
      deleteAlarm targetId existing = (existing.eraseIdx i,
        match a.notificationId with
        | some nid => cancelAlarmNotification nid
        | none => [])) ∧
    (∀ (freshId : String) (data : Alarm) (existing : List Alarm),
      ∃ u, (addAlarm granted sched freshId now data existing).1 = existing ++ [u]) := by
  refine ⟨?_, ?_, ?_, ?_, ?_, ?_⟩
  · intro ua existing i a hfind
    unfold updateAlarm
    rw [hfind]
    exact ⟨_, _, rfl, framedSet_set _ _ _⟩
  · intro targetId b existing i a hfind
    unfold toggleAlarm
    rw [hfind]
    exact ⟨_, _, rfl, framedSet_set _ _ _⟩
  · intro targetId d existing i a hfind
    unfold snoozeAlarm
    rw [hfind]
    exact ⟨_, _, rfl, framedSet_set _ _ _⟩
  · intro targetId existing i a hfind
    unfold dismissAlarm
    rw [hfind]
    exact ⟨_, _, rfl, framedSet_set _ _ _⟩
  · intro targetId existing i a hnd hfind
    unfold deleteAlarm
    rw [find?_of_findWithIndex hfind, filter_ne_eq_eraseIdx hnd hfind]
  · intro freshId data existing
    unfold addAlarm
    exact ⟨_, rfl⟩

theorem C10_witness :
    findWithIndex (fun x => x.id == ({ alarmOneShot with id := "a4" } : Alarm).id)
        [alarmWithTimeA] = some (0, alarmWithTimeA) ∧
    (∃ u evs, updateAlarm true (fun _ => some "n") 0 { alarmOneShot with id := "a4" }
        [alarmWithTimeA] = Except.ok (([alarmWithTimeA] : List Alarm).set 0 u, evs) ∧
      framedSet [alarmWithTimeA] (([alarmWithTimeA] : List Alarm).set 0 u) 0) ∧
    ([alarmWithTimeA].map (fun x => x.id)).Nodup ∧
    deleteAlarm "a4" [alarmWithTimeA] = (([alarmWithTimeA] : List Alarm).eraseIdx 0,
      match alarmWithTimeA.notificationId with
      | some nid => cancelAlarmNotification nid
      | none => []) ∧
    (∃ u, (addAlarm true (fun _ => some "n") "f1" 0 alarmOneShot [alarmWithTimeA]).1 =
      [alarmWithTimeA] ++ [u]) :=
  ⟨by decide,
    (C10_frame_effects true (fun _ => some "n") 0).1 { alarmOneShot with id := "a4" }
      [alarmWithTimeA] 0 alarmWithTimeA (by decide),
    by decide,
    (C10_frame_effects true (fun _ => some "n") 0).2.2.2.2.1 "a4" [alarmWithTimeA] 0
      alarmWithTimeA (by decide) (by decide),
    (C10_frame_effects true (fun _ => some "n") 0).2.2.2.2.2 "f1" alarmOneShot
      [alarmWithTimeA]⟩

/-! ### Claim C7 -/

/-- C7: dismissing an existing one-shot alarm deactivates it, clears its
ring time and stores no handle; dismissing an existing active repeating
alarm keeps it active, recomputes a ring time strictly after `now`, and
stores the handle returned by a fresh arming attempt. -/
theorem C7_dismiss_semantics (granted : Bool) (sched : Alarm → Option String)
    (now : Nat) (targetId : String) (existing : List Alarm) (i : Nat) (a : Alarm)
    (hfind : findWithIndex (fun x => x.id == targetId) existing = some (i, a)) :
    (a.repeatDays = [] →
      dismissAlarm granted sched now targetId existing =
        (existing.set i
          { a with active := false, nextRingTime := none, notificationId := none },
          match a.notificationId with
          | some nid => cancelAlarmNotification nid
          | none => [])) ∧
    (a.repeatDays ≠ [] → a.active = true →
      ∃ u evs t,
        dismissAlarm granted sched now targetId existing = (existing.set i u, evs) ∧
        u.active = true ∧ u.nextRingTime = some t ∧ now < t ∧
        u.notificationId = (scheduleAlarmNotification granted sched
          { a with notificationId := none, nextRingTime := some t }).1) := by
  constructor
  · intro hrep
    simp only [dismissAlarm, hfind]
    rw [if_neg (by simp [hrep])]
    simp
  · intro hrep hact
    have hcalcne : calculateNextRingTime { a with notificationId := none } now ≠ none := by
      rw [Ne, calculateNextRingTime_eq_none_iff]
      simp [hact]
    obtain ⟨t, ht⟩ := Option.ne_none_iff_exists'.mp hcalcne
    have hpos := calculateNextRingTime_pos ht
    simp only [dismissAlarm, hfind]
    have hcond : ({ a with notificationId := none } : Alarm).repeatDays ≠ [] := by
      simp [hrep]
    rw [if_pos hcond, ht]
    have hcond2 : ({ a with notificationId := none, nextRingTime := some t } : Alarm).active
        = true ∧ ({ a with notificationId := none, nextRingTime := some t } : Alarm).nextRingTime
        ≠ none := ⟨hact, by simp⟩
    rw [if_pos hcond2]
    exact ⟨_, _, t, rfl, hact, rfl, hpos, rfl⟩

theorem C7_witness :
    (findWithIndex (fun x => x.id == "a1") [alarmOneShot] = some (0, alarmOneShot) ∧
      alarmOneShot.repeatDays = [] ∧
      dismissAlarm true (fun _ => some "n") 0 "a1" [alarmOneShot] =
        (([alarmOneShot] : List Alarm).set 0
          { alarmOneShot with
            active := false
            nextRingTime := none
            notificationId := none },
          match alarmOneShot.notificationId with
          | some nid => cancelAlarmNotification nid
          | none => [])) ∧
    (findWithIndex (fun x => x.id == "a2") [alarmRepeating] = some (0, alarmRepeating) ∧
      alarmRepeating.repeatDays ≠ [] ∧ alarmRepeating.active = true ∧
      ∃ u evs t,
        dismissAlarm true (fun _ => some "n") 0 "a2" [alarmRepeating] =
          (([alarmRepeating] : List Alarm).set 0 u, evs) ∧
        u.active = true ∧ u.nextRingTime = some t ∧ 0 < t ∧
        u.notificationId = (scheduleAlarmNotification true (fun _ => some "n")
          { alarmRepeating with notificationId := none, nextRingTime := some t }).1) :=
  ⟨⟨by decide, by decide,
      (C7_dismiss_semantics true (fun _ => some "n") 0 "a1" [alarmOneShot] 0 alarmOneShot
        (by decide)).1 (by decide)⟩,
    ⟨by decide, by decide, by decide,
      (C7_dismiss_semantics true (fun _ => some "n") 0 "a2" [alarmRepeating] 0 alarmRepeating
        (by decide)).2 (by decide) (by decide)⟩⟩

/-! ### Claim C8 -/

/-- C8: snoozing an existing alarm overrides its ring time to exactly
`now + d` minutes (`d * 60 * 1000` ms) regardless of its configured
hour, minute and repeat days, persists the single rewritten record, and
returns that single record rather than the collection. -/
theorem C8_snooze_sets_exact_override (granted : Bool) (sched : Alarm → Option String)
    (now : Nat) (targetId : String) (d : Nat) (existing : List Alarm) (i : Nat) (a : Alarm)
    (hfind : findWithIndex (fun x => x.id == targetId) existing = some (i, a)) :
    ∃ u evs,
      snoozeAlarm granted sched now targetId d existing = (some u, existing.set i u, evs) ∧
      u.nextRingTime = some (now + d * 60 * 1000) ∧
      u.hour = a.hour ∧ u.minute = a.minute ∧ u.repeatDays = a.repeatDays ∧
      u.id = a.id ∧ u.active = a.active := by
  simp only [snoozeAlarm, hfind]
  exact ⟨_, _, rfl, rfl, rfl, rfl, rfl, rfl, rfl⟩

theorem C8_witness :
    findWithIndex (fun x => x.id == "a2") [alarmRepeating] = some (0, alarmRepeating) ∧
    ∃ u evs,
      snoozeAlarm true (fun _ => some "n") 1000 "a2" 9 [alarmRepeating] =
        (some u, ([alarmRepeating] : List Alarm).set 0 u, evs) ∧
      u.nextRingTime = some (1000 + 9 * 60 * 1000) ∧
      u.hour = alarmRepeating.hour ∧ u.minute = alarmRepeating.minute ∧
      u.repeatDays = alarmRepeating.repeatDays ∧
      u.id = alarmRepeating.id ∧ u.active = alarmRepeating.active :=
  ⟨by decide,
    C8_snooze_sets_exact_override true (fun _ => some "n") 1000 "a2" 9 [alarmRepeating] 0
      alarmRepeating (by decide)⟩

/-! ### Claim C4 -/

theorem scheduleAlarmNotification_fst_ne_none {granted : Bool}
    {sched : Alarm → Option String} {al : Alarm}
    (h : (scheduleAlarmNotification granted sched al).1 ≠ none) :
    al.active = true ∧ al.nextRingTime ≠ none := by
  unfold scheduleAlarmNotification at h
  split_ifs at h with h1 h2
  · simp at h
  · simp at h
  · constructor
    · cases hact : al.active with
      | false => exact absurd (Or.inl hact) h1
      | true => rfl
    · intro hn
      exact h1 (Or.inr hn)

theorem handleImpliesArmed_mk {granted : Bool} {sched : Alarm → Option String}
    {X u : Alarm}
    (hu : u.notificationId = (scheduleAlarmNotification granted sched X).1)
    (hact : u.active = X.active) (hnext : u.nextRingTime = X.nextRingTime) :
    handleImpliesArmed u := by
  intro h
  rw [hu] at h
  have hX := scheduleAlarmNotification_fst_ne_none h
  rw [hact, hnext]
  exact hX

/-- C4 (amended): every store operation preserves the one-way invariant
"a stored `notificationId` implies `active` with a non-null
`nextRingTime`" across the whole collection. -/
theorem C4_handle_invariant_preserved (granted : Bool) (sched : Alarm → Option String)
    (now : Nat) :
    (∀ (freshId : String) (data : Alarm) (existing : List Alarm),
      (∀ a ∈ existing, handleImpliesArmed a) →
      ∀ b ∈ (addAlarm granted sched freshId now data existing).1, handleImpliesArmed b) ∧
    (∀ (ua : Alarm) (existing st : List Alarm) (evs : List NotifEvent),
      (∀ a ∈ existing, handleImpliesArmed a) →
      updateAlarm granted sched now ua existing = Except.ok (st, evs) →
      ∀ b ∈ st, handleImpliesArmed b) ∧
    (∀ (targetId : String) (act : Bool) (existing st : List Alarm) (evs : List NotifEvent),
      (∀ a ∈ existing, handleImpliesArmed a) →
      toggleAlarm granted sched now targetId act existing = Except.ok (st, evs) →
      ∀ b ∈ st, handleImpliesArmed b) ∧
    (∀ (targetId : String) (existing : List Alarm),
      (∀ a ∈ existing, handleImpliesArmed a) →
      ∀ b ∈ (deleteAlarm targetId existing).1, handleImpliesArmed b) ∧
    (∀ (targetId : String) (d : Nat) (existing : List Alarm),
      (∀ a ∈ existing, handleImpliesArmed a) →
      ∀ b ∈ (snoozeAlarm granted sched now targetId d existing).2.1, handleImpliesArmed b) ∧
    (∀ (targetId : String) (existing : List Alarm),
      (∀ a ∈ existing, handleImpliesArmed a) →
      ∀ b ∈ (dismissAlarm granted sched now targetId existing).1, handleImpliesArmed b) ∧
    (∀ existing : List Alarm,
      (∀ a ∈ existing, handleImpliesArmed a) →
      ∀ b ∈ (updateAllAlarmNotifications granted sched now existing).1,
        handleImpliesArmed b) := by
  refine ⟨?_, ?_, ?_, ?_, ?_, ?_, ?_⟩
  · intro freshId data existing hpre b hb
    simp only [addAlarm] at hb
    rcases List.mem_append.mp hb with hmem | hmem
    · exact hpre b hmem
    · have hb' := List.eq_of_mem_singleton hmem
      subst hb'
      split
      · exact handleImpliesArmed_mk rfl rfl rfl
      · intro hcontra
        exact absurd rfl hcontra
  · intro ua existing st evs hpre heq b hb
    unfold updateAlarm at heq
    cases hfind : findWithIndex (fun x => x.id == ua.id) existing with
    | none => rw [hfind] at heq; simp at heq
    | some ia =>
      obtain ⟨i, o⟩ := ia
      rw [hfind] at heq
      injection heq with h
      injection h with h1 h2
      subst h1
      rcases List.mem_or_eq_of_mem_set hb with hmem | rfl
      · exact hpre b hmem
      · split
        · exact handleImpliesArmed_mk rfl rfl rfl
        · intro hcontra
          exact absurd rfl hcontra
  · intro targetId act existing st evs hpre heq b hb
    unfold toggleAlarm at heq
    cases hfind : findWithIndex (fun x => x.id == targetId) existing with
    | none => rw [hfind] at heq; simp at heq
    | some ia =>
      obtain ⟨i, o⟩ := ia
      rw [hfind] at heq
      injection heq with h
      injection h with h1 h2
      subst h1
      rcases List.mem_or_eq_of_mem_set hb with hmem | rfl
      · exact hpre b hmem
      · cases ho : ({ o with active := act } : Alarm).notificationId with
        | some nid =>
          simp only [ho]
          split
          · exact handleImpliesArmed_mk rfl rfl rfl
          · intro hcontra
            exact absurd rfl hcontra
        | none =>
          simp only [ho]
          split
          · exact handleImpliesArmed_mk rfl rfl rfl
          · intro hcontra
            exact absurd rfl hcontra
  · intro targetId existing hpre b hb
    unfold deleteAlarm at hb
    cases hfd : existing.find? (fun a => a.id == targetId) with
    | none => rw [hfd] at hb; exact hpre b hb
    | some o =>
      rw [hfd] at hb
      exact hpre b (List.mem_of_mem_filter hb)
  · intro targetId d existing hpre b hb
    unfold snoozeAlarm at hb
    cases hfind : findWithIndex (fun x => x.id == targetId) existing with
    | none => rw [hfind] at hb; exact hpre b hb
    | some ia =>
      obtain ⟨i, o⟩ := ia
      rw [hfind] at hb
      rcases List.mem_or_eq_of_mem_set hb with hmem | rfl
      · exact hpre b hmem
      · exact handleImpliesArmed_mk rfl rfl rfl
  · intro targetId existing hpre b hb
    unfold dismissAlarm at hb
    cases hfind : findWithIndex (fun x => x.id == targetId) existing with
    | none => rw [hfind] at hb; exact hpre b hb
    | some ia =>
      obtain ⟨i, o⟩ := ia
      rw [hfind] at hb
      rcases List.mem_or_eq_of_mem_set hb with hmem | rfl
      · exact hpre b hmem
      · dsimp only
        split
        · split
          · exact handleImpliesArmed_mk rfl rfl rfl
          · intro hcontra
            exact absurd rfl hcontra
        · intro hcontra
          exact absurd rfl hcontra
  · intro existing hpre b hb
    induction existing with
    | nil => simp [updateAllAlarmNotifications] at hb
    | cons x xs ih =>
      simp only [updateAllAlarmNotifications] at hb
      rcases List.mem_cons.mp hb with rfl | hmem
      · split
        · exact handleImpliesArmed_mk rfl rfl rfl
        · cases ho : ({ x with
              nextRingTime := calculateNextRingTime x now } : Alarm).notificationId with
          | some nid =>
            simp only [ho]
            intro hcontra
            exact absurd rfl hcontra
          | none =>
            simp only [ho]
            intro hcontra
            exact absurd rfl hcontra
      · exact ih (fun a ha => hpre a (List.mem_cons_of_mem _ ha)) hmem

/-- C4 counterexample: when the arming collaborator returns null
(permission denied or scheduling failure), `addAlarm` leaves a record
that is active with a non-null `nextRingTime` but has no
`notificationId`, so the claimed iff fails after that operation. -/
theorem C4_counterexample :
    ¬ (∀ b ∈ (addAlarm true (fun _ => none) "id1" 0 alarmOneShot []).1,
        (b.notificationId ≠ none ↔ (b.active = true ∧ b.nextRingTime ≠ none))) := by
  decide

theorem C4_witness :
    (∀ a ∈ [alarmWithTimeA], handleImpliesArmed a) ∧
    (∀ b ∈ (addAlarm true (fun _ => some "n") "f1" 0 alarmOneShot [alarmWithTimeA]).1,
      handleImpliesArmed b) :=
  ⟨by decide,
    (C4_handle_invariant_preserved true (fun _ => some "n") 0).1 "f1" alarmOneShot
      [alarmWithTimeA] (by decide)⟩

end AuroraWake
